import Mathlib

/-!
Verification of the str line-oriented text transformation engine
(src/src/main.rs, src/src/cli.rs).

The input line is modelled as a list of bytes (`Str := List Char`, one
`Char` per byte; per the spec all indices are byte offsets and non-ASCII
slicing is undefined behaviour, so the byte-level list model is the
sanctioned abstraction).  Rust's standard-library primitives used by the
source (`find`, `rfind`, `split`, `splitn`, `rsplitn`,
`split_whitespace`, range slicing) are embedded as executable Lean
functions with the same semantics, including the empty-pattern edge
cases of the `std` searcher.  Fallible constructs are made explicit:

* `rustSlice` returns `Option Str`; `none` models a Rust slice-bounds
  panic.
* Functions of the source that call `std::process::exit(1)` after a
  diagnostic, or that can panic, return `Res` with constructors
  `ok` / `fatal` (diagnostic + non-zero exit) / `panicked`.
* `usize` casts and subtraction follow release-build wrap-around
  semantics, modelled with explicit arithmetic modulo `2 ^ 64`.
-/

namespace StrSpec

/-- A line of input: a sequence of bytes. -/
abbrev Str := List Char

/-- Shorthand turning a Lean string literal into the byte-list model. -/
def str (s : String) : Str := s.data

/-- Output of one operation, as in the source: either an ordered list of
segments or a single string. -/
inductive Output where
  | Multiple (xs : List Str) : Output
  | Single (s : Str) : Output
deriving DecidableEq

/-- Result of an operation that may emit a diagnostic and exit the
process (`fatal`), or hit a Rust panic such as an out-of-bounds or
inverted slice (`panicked`). -/
inductive Res where
  | ok (s : Str) : Res
  | fatal : Res
  | panicked : Res
deriving DecidableEq

/-- 2^64, the modulus of `usize` arithmetic on the reference platform. -/
def USIZE : Nat := 2 ^ 64

/-- The Rust cast `i as usize` for `i : i64` (release semantics:
two's-complement reinterpretation, i.e. reduction mod 2^64). -/
def asUsize (i : Int) : Nat := (i % (USIZE : Int)).toNat

/-- Rust range slicing `input[a..b]`: `some` of the sub-list when
`a <= b <= input.len()`, `none` when Rust would panic. -/
def rustSlice (input : Str) (a b : Nat) : Option Str :=
  if a ≤ b ∧ b ≤ input.length then some ((input.drop a).take (b - a)) else none

/-- Decides whether the first list is a prefix of the second. -/
def isPreOf : Str → Str → Bool
  | [], _ => true
  | _ :: _, [] => false
  | a :: as, b :: bs => a = b && isPreOf as bs

/-- Rust `str::find`: index of the first occurrence of `pat` in `input`
(the empty pattern matches at index 0). -/
def findSub (pat : Str) : Str → Option Nat
  | [] => if pat = [] then some 0 else none
  | c :: rest =>
    if isPreOf pat (c :: rest) then some 0
    else (findSub pat rest).map (· + 1)

/-- Rust `str::rfind`: index of the last occurrence of `pat` in `input`
(the empty pattern matches at index `input.len()`). -/
def rfindSub (pat : Str) : Str → Option Nat
  | [] => if pat = [] then some 0 else none
  | c :: rest =>
    match rfindSub pat rest with
    | some i => some (i + 1)
    | none => if isPreOf pat (c :: rest) then some 0 else none

/-- Pieces of a left-anchored split with at most `k` splits performed,
for a nonempty pattern: the engine of Rust `splitn(k+1, pat)`; with
`k >= input.length` it is the unbounded `split(pat)` (each match of a
nonempty pattern consumes at least one byte, so at most `input.length`
splits can ever happen). -/
def splitnGo : Nat → Str → Str → List Str
  | 0, _, s => [s]
  | k + 1, pat, s =>
    match findSub pat s with
    | none => [s]
    | some i => s.take i :: splitnGo k pat (s.drop (i + pat.length))

/-- Pieces of a right-anchored split with at most `k` splits performed,
for a nonempty pattern: the engine of Rust `rsplitn(k+1, pat)`.
Segments come out right-to-left, the unsplit left remainder last. -/
def rsplitnGo : Nat → Str → Str → List Str
  | 0, _, s => [s]
  | k + 1, pat, s =>
    match rfindSub pat s with
    | none => [s]
    | some i => s.drop (i + pat.length) :: rsplitnGo k pat (s.take i)

/-- Rust `split` with the empty pattern: the searcher matches at every
byte boundary, giving an empty piece, each byte alone, and a trailing
empty piece. -/
def splitEmptyPat (s : Str) : List Str :=
  [] :: (s.map (fun c => [c]) ++ [[]])

/-- Rust `splitn(n, "")`: the first `min (n-1) (len+1)` boundary matches
are consumed, the raw rest is the final piece. -/
def splitnEmptyPat (n : Nat) (s : Str) : List Str :=
  if n = 0 then []
  else
    let k := min (n - 1) (s.length + 1)
    if k = 0 then [s]
    else [] :: ((s.take (k - 1)).map (fun c => [c]) ++ [s.drop (k - 1)])

/-- Rust `rsplitn(n, "")`: boundary matches consumed from the right. -/
def rsplitnEmptyPat (n : Nat) (s : Str) : List Str :=
  if n = 0 then []
  else
    let k := min (n - 1) (s.length + 1)
    if k = 0 then [s]
    else
      [] :: ((s.drop (s.length - (k - 1))).reverse.map (fun c => [c])
        ++ [s.take (s.length - (k - 1))])

/-- Rust `input.split(pat).collect()`. -/
def splitSub (pat input : Str) : List Str :=
  if pat = [] then splitEmptyPat input
  else splitnGo (input.length + 1) pat input

/-- Rust `input.splitn(n, pat).collect()`. -/
def splitnSub (n : Nat) (pat input : Str) : List Str :=
  if n = 0 then []
  else if pat = [] then splitnEmptyPat n input
  else splitnGo (n - 1) pat input

/-- Rust `input.rsplitn(n, pat).collect()`. -/
def rsplitnSub (n : Nat) (pat input : Str) : List Str :=
  if n = 0 then []
  else if pat = [] then rsplitnEmptyPat n input
  else rsplitnGo (n - 1) pat input

/-- Whitespace test of the byte model: the ASCII bytes Rust's
`char::is_whitespace` accepts (tab, LF, VT, FF, CR, space). -/
def isWs (c : Char) : Bool :=
  c.toNat = 9 || c.toNat = 10 || c.toNat = 11 || c.toNat = 12 ||
  c.toNat = 13 || c.toNat = 32

/-- Worker for `split_whitespace`: accumulates the current token
(reversed) and emits it at each whitespace run. -/
def wsGo : Str → Str → List Str
  | acc, [] => if acc = [] then [] else [acc.reverse]
  | acc, c :: rest =>
    if isWs c then
      if acc = [] then wsGo [] rest else acc.reverse :: wsGo [] rest
    else wsGo (c :: acc) rest

/-- Rust `split_whitespace().collect()`: maximal runs of non-whitespace
bytes, leading/trailing whitespace ignored. -/
def splitWhitespace (input : Str) : List Str := wsGo [] input

/-- Rust `Vec::join(sep)`. -/
def joinWith (sep : Str) : List Str → Str
  | [] => []
  | [x] => x
  | x :: y :: xs => x ++ sep ++ joinWith sep (y :: xs)

/-! Operation functions, one per function of `mod op_functions` in
src/src/main.rs, with the source's names. -/

/-- src/src/main.rs `split_at_whitespace`: no count splits on all
whitespace runs; negative count takes the last `|x|` tokens in reverse
order; positive count takes the first `x` tokens; zero returns the
input as `Single`. -/
def split_at_whitespace (number : Option Int) (input : Str) : Output :=
  match number with
  | none => .Multiple (splitWhitespace input)
  | some x =>
    if x < 0 then .Multiple (((splitWhitespace input).reverse).take x.natAbs)
    else if 0 < x then .Multiple ((splitWhitespace input).take x.toNat)
    else .Single input

/-- src/src/main.rs `split_at_pat`: no count is a full `split`;
negative count is `rsplitn(|x|, pat)`; positive count is
`splitn(x, pat)`; zero returns the input as `Single`. -/
def split_at_pat (number : Option Int) (pat input : Str) : Output :=
  match number with
  | none => .Multiple (splitSub pat input)
  | some x =>
    if x < 0 then .Multiple (rsplitnSub x.natAbs pat input)
    else if 0 < x then .Multiple (splitnSub x.toNat pat input)
    else .Single input

/-- src/src/main.rs `split_at_char`: as `split_at_pat` with the
one-byte pattern `[c]` (a `char` pattern matches exactly where its
one-character string does). -/
def split_at_char (number : Option Int) (c : Char) (input : Str) : Output :=
  match number with
  | none => .Multiple (splitSub [c] input)
  | some x =>
    if x < 0 then .Multiple (rsplitnSub x.natAbs [c] input)
    else if 0 < x then .Multiple (splitnSub x.toNat [c] input)
    else .Single input

/-- src/src/main.rs `cut_from_pat`:
`input[input.find(pattern).unwrap_or(0)..]`.  The start index is always
at most `input.len()`, so the slice cannot panic and the function is
total. -/
def cut_from_pat (pat input : Str) : Str :=
  input.drop ((findSub pat input).getD 0)

/-- src/src/main.rs `trim_from_pat`:
`input[input.find(pattern).unwrap_or(0)..]` — byte-for-byte the same
body as `cut_from_pat`. -/
def trim_from_pat (pat input : Str) : Str :=
  input.drop ((findSub pat input).getD 0)

/-- src/src/main.rs `cut_from_pat_to_offset`.  `start_idx` is
`find(pattern).unwrap_or(0)`; the guard compares
`offset as usize + start_idx` with `input.len() - 1` in wrapping
`usize` arithmetic and exits with a diagnostic when it exceeds it;
otherwise the retained range is `start_idx..start_idx+offset` for
`offset >= 0` and the (inverted) `start_idx+|offset|..start_idx` for
`offset < 0`.  A slice failure is a panic. -/
def cut_from_pat_to_offset (pat : Str) (offset : Int) (input : Str) : Res :=
  let start_idx := (findSub pat input).getD 0
  if (asUsize offset + start_idx) % USIZE > (input.length + USIZE - 1) % USIZE then
    .fatal
  else
    match
      (if offset < 0 then rustSlice input (start_idx + offset.natAbs) start_idx
       else rustSlice input start_idx (start_idx + offset.natAbs)) with
    | some s => .ok s
    | none => .panicked

/-- src/src/main.rs `cut_until_index`:
`input[..if index != 0 { index } else { input.len() }]`. -/
def cut_until_index (index : Nat) (input : Str) : Option Str :=
  rustSlice input 0 (if index ≠ 0 then index else input.length)

/-- src/src/main.rs `trim_to_pat`:
`input[input.find(pattern).unwrap_or(0) + input.len()..]`. -/
def trim_to_pat (pat input : Str) : Option Str :=
  rustSlice input ((findSub pat input).getD 0 + input.length) input.length

/-- src/src/main.rs `replace` (also backing the Remove subcommand):
no count splits on the pattern and joins with the replacement; a
negative count is `rsplitn(|x|, pattern).collect()` and a positive one
`splitn(x, pattern).collect()` — both plain concatenations that never
insert the replacement; zero returns the input. -/
def replace (pat w : Str) (number : Option Int) (input : Str) : Str :=
  match number with
  | none => joinWith w (splitSub pat input)
  | some x =>
    if x < 0 then (rsplitnSub x.natAbs pat input).flatten
    else if x = 0 then input
    else (splitnSub x.toNat pat input).flatten

/-- src/src/main.rs `cut_from_pat_to_index`: exits fatally when the
explicit index is below the found position, returns the input unchanged
when they are equal, and otherwise retains `input[found_idx..index]`. -/
def cut_from_pat_to_index (pat : Str) (index : Nat) (input : Str) : Res :=
  let found_idx := (findSub pat input).getD 0
  if index < found_idx then .fatal
  else if index = found_idx then .ok input
  else
    match rustSlice input found_idx index with
    | some s => .ok s
    | none => .panicked

/-- src/src/main.rs `cut_from_index_to_pat`: exits fatally when the
explicit index is above the found position, returns the input unchanged
when they are equal, and otherwise retains `input[index..found_idx]`. -/
def cut_from_index_to_pat (index : Nat) (pat : Str) (input : Str) : Res :=
  let found_idx := (findSub pat input).getD 0
  if found_idx < index then .fatal
  else if index = found_idx then .ok input
  else
    match rustSlice input index found_idx with
    | some s => .ok s
    | none => .panicked

/-- src/src/main.rs `trim_from_pat_to_index`: exits fatally when the
explicit index is below the found position, returns the input unchanged
when they are equal, and otherwise excises the middle:
`input[..found_idx] + input[index..]`. -/
def trim_from_pat_to_index (pat : Str) (index : Nat) (input : Str) : Res :=
  let found_idx := (findSub pat input).getD 0
  if index < found_idx then .fatal
  else if index = found_idx then .ok input
  else
    match rustSlice input 0 found_idx, rustSlice input index input.length with
    | some a, some b => .ok (a ++ b)
    | _, _ => .panicked

/-- src/src/main.rs `trim_from_index_to_pat`: exits fatally when the
explicit index is above the found position, returns the input unchanged
when they are equal, and otherwise excises the middle:
`input[..index] + input[found_idx..]`. -/
def trim_from_index_to_pat (index : Nat) (pat : Str) (input : Str) : Res :=
  let found_idx := (findSub pat input).getD 0
  if found_idx < index then .fatal
  else if index = found_idx then .ok input
  else
    match rustSlice input 0 index, rustSlice input found_idx input.length with
    | some a, some b => .ok (a ++ b)
    | _, _ => .panicked

/-! Structural lemmas about the embedded primitives. -/

theorem isPreOf_append : ∀ (p s : Str), isPreOf p s = true → p ++ s.drop p.length = s
  | [], s, _ => by simp
  | a :: as, [], h => by simp [isPreOf] at h
  | a :: as, b :: bs, h => by
    simp only [isPreOf, Bool.and_eq_true, decide_eq_true_eq] at h
    obtain ⟨rfl, h2⟩ := h
    simp only [List.length_cons, List.drop_succ_cons, List.cons_append, List.cons.injEq,
      true_and]
    exact isPreOf_append as bs h2

theorem findSub_spec (pat : Str) : ∀ (s : Str) (i : Nat), findSub pat s = some i →
    s.take i ++ pat ++ s.drop (i + pat.length) = s := by
  intro s
  induction s with
  | nil =>
    intro i h
    simp only [findSub] at h
    split at h
    · next hp => cases h; subst hp; simp
    · simp at h
  | cons c rest ih =>
    intro i h
    simp only [findSub] at h
    split at h
    · next hpre =>
      cases h
      simpa using isPreOf_append pat (c :: rest) hpre
    · cases hfr : findSub pat rest with
      | none => rw [hfr] at h; simp at h
      | some j =>
        rw [hfr] at h
        simp only [Option.map_some', Option.some.injEq] at h
        subst h
        have hr := ih j hfr
        have harith : j + 1 + pat.length = (j + pat.length) + 1 := by omega
        rw [harith]
        simpa [List.take_succ_cons, List.drop_succ_cons] using hr

theorem rfindSub_spec (pat : Str) : ∀ (s : Str) (i : Nat), rfindSub pat s = some i →
    s.take i ++ pat ++ s.drop (i + pat.length) = s := by
  intro s
  induction s with
  | nil =>
    intro i h
    simp only [rfindSub] at h
    split at h
    · next hp => cases h; subst hp; simp
    · simp at h
  | cons c rest ih =>
    intro i h
    simp only [rfindSub] at h
    cases hfr : rfindSub pat rest with
    | some j =>
      rw [hfr] at h
      cases h
      have hr := ih j hfr
      have harith : j + 1 + pat.length = (j + pat.length) + 1 := by omega
      rw [harith]
      simpa [List.take_succ_cons, List.drop_succ_cons] using hr
    | none =>
      rw [hfr] at h
      by_cases hpre : isPreOf pat (c :: rest) = true
      · rw [if_pos hpre] at h
        cases h
        simpa using isPreOf_append pat (c :: rest) hpre
      · rw [if_neg hpre] at h
        simp at h

theorem joinWith_cons (sep x : Str) (xs : List Str) (h : xs ≠ []) :
    joinWith sep (x :: xs) = x ++ sep ++ joinWith sep xs := by
  cases xs with
  | nil => exact absurd rfl h
  | cons y ys => rfl

theorem joinWith_append_single (sep z : Str) :
    ∀ (ys : List Str), ys ≠ [] → joinWith sep (ys ++ [z]) = joinWith sep ys ++ sep ++ z
  | [], h => absurd rfl h
  | [x], _ => by simp [joinWith]
  | x :: y :: ys, _ => by
    have ih := joinWith_append_single sep z (y :: ys) (by simp)
    have h1 : joinWith sep (x :: y :: ys ++ [z]) =
        x ++ sep ++ joinWith sep (y :: ys ++ [z]) := by
      rw [show x :: y :: ys ++ [z] = x :: (y :: ys ++ [z]) from rfl]
      exact joinWith_cons sep x _ (by simp)
    rw [h1]
    rw [show y :: ys ++ [z] = (y :: ys) ++ [z] from rfl, ih]
    rw [joinWith_cons sep x (y :: ys) (by simp)]
    simp [List.append_assoc]

theorem joinWith_nil : ∀ (xs : List Str), joinWith [] xs = xs.flatten
  | [] => rfl
  | [x] => by simp [joinWith]
  | x :: y :: ys => by
    rw [joinWith_cons [] x (y :: ys) (by simp), joinWith_nil (y :: ys)]
    simp

theorem flatten_map_singleton : ∀ (l : Str), (l.map (fun c => [c])).flatten = l
  | [] => rfl
  | c :: cs => by simp [flatten_map_singleton cs]

theorem splitnGo_ne_nil : ∀ (k : Nat) (pat s : Str), splitnGo k pat s ≠ []
  | 0, _, _ => by simp [splitnGo]
  | k + 1, pat, s => by
    simp only [splitnGo]
    cases findSub pat s <;> simp

theorem rsplitnGo_ne_nil : ∀ (k : Nat) (pat s : Str), rsplitnGo k pat s ≠ []
  | 0, _, _ => by simp [rsplitnGo]
  | k + 1, pat, s => by
    simp only [rsplitnGo]
    cases rfindSub pat s <;> simp

theorem joinWith_splitnGo : ∀ (k : Nat) (pat s : Str),
    joinWith pat (splitnGo k pat s) = s
  | 0, _, _ => rfl
  | k + 1, pat, s => by
    cases hfr : findSub pat s with
    | none => simp [splitnGo, hfr, joinWith]
    | some i =>
      simp only [splitnGo, hfr]
      rw [joinWith_cons pat _ _ (splitnGo_ne_nil k pat _), joinWith_splitnGo k pat]
      simpa [List.append_assoc] using findSub_spec pat s i hfr

theorem joinWith_rsplitnGo : ∀ (k : Nat) (pat s : Str),
    joinWith pat (rsplitnGo k pat s).reverse = s
  | 0, _, _ => rfl
  | k + 1, pat, s => by
    cases hfr : rfindSub pat s with
    | none => simp [rsplitnGo, hfr, joinWith]
    | some i =>
      simp only [rsplitnGo, hfr, List.reverse_cons]
      rw [joinWith_append_single pat _ _
        (by simpa using rsplitnGo_ne_nil k pat (s.take i))]
      rw [joinWith_rsplitnGo k pat]
      simpa [List.append_assoc] using rfindSub_spec pat s i hfr

theorem splitnGo_length : ∀ (k : Nat) (pat s : Str), (splitnGo k pat s).length ≤ k + 1
  | 0, _, _ => by simp [splitnGo]
  | k + 1, pat, s => by
    cases hfr : findSub pat s with
    | none => simp [splitnGo, hfr]
    | some i =>
      simp only [splitnGo, hfr, List.length_cons]
      have := splitnGo_length k pat (s.drop (i + pat.length))
      omega

theorem rsplitnGo_length : ∀ (k : Nat) (pat s : Str), (rsplitnGo k pat s).length ≤ k + 1
  | 0, _, _ => by simp [rsplitnGo]
  | k + 1, pat, s => by
    cases hfr : rfindSub pat s with
    | none => simp [rsplitnGo, hfr]
    | some i =>
      simp only [rsplitnGo, hfr, List.length_cons]
      have := rsplitnGo_length k pat (s.take i)
      omega

theorem splitnEmptyPat_join (n : Nat) (hn : n ≠ 0) (s : Str) :
    joinWith [] (splitnEmptyPat n s) = s := by
  unfold splitnEmptyPat
  rw [if_neg hn]
  by_cases h0 : min (n - 1) (s.length + 1) = 0
  · simp [h0, joinWith]
  · rw [if_neg h0, joinWith_nil]
    simp only [List.flatten_cons, List.flatten_append, List.flatten_nil, List.nil_append,
      List.append_nil, flatten_map_singleton]
    exact List.take_append_drop _ s

theorem splitnEmptyPat_length (n : Nat) (hn : n ≠ 0) (s : Str) :
    (splitnEmptyPat n s).length ≤ n := by
  unfold splitnEmptyPat
  rw [if_neg hn]
  by_cases h0 : min (n - 1) (s.length + 1) = 0
  · rw [if_pos h0]
    simp only [List.length_cons, List.length_nil]
    omega
  · rw [if_neg h0]
    simp only [List.length_cons, List.length_append, List.length_map, List.length_take,
      List.length_nil]
    omega

theorem rsplitnEmptyPat_join (n : Nat) (hn : n ≠ 0) (s : Str) :
    joinWith [] (rsplitnEmptyPat n s).reverse = s := by
  unfold rsplitnEmptyPat
  rw [if_neg hn]
  by_cases h0 : min (n - 1) (s.length + 1) = 0
  · simp [h0, joinWith]
  · rw [if_neg h0, joinWith_nil]
    simp only [List.reverse_cons, List.reverse_append, List.reverse_nil, List.nil_append,
      List.map_reverse, List.reverse_reverse, List.flatten_append, List.flatten_cons,
      List.flatten_nil, List.append_nil, flatten_map_singleton]
    exact List.take_append_drop _ s

theorem rsplitnEmptyPat_length (n : Nat) (hn : n ≠ 0) (s : Str) :
    (rsplitnEmptyPat n s).length ≤ n := by
  unfold rsplitnEmptyPat
  rw [if_neg hn]
  by_cases h0 : min (n - 1) (s.length + 1) = 0
  · rw [if_pos h0]
    simp only [List.length_cons, List.length_nil]
    omega
  · rw [if_neg h0]
    simp only [List.length_cons, List.length_append, List.length_map, List.length_reverse,
      List.length_drop, List.length_nil]
    omega

theorem splitnSub_spec (n : Nat) (hn : n ≠ 0) (pat s : Str) :
    (splitnSub n pat s).length ≤ n ∧ joinWith pat (splitnSub n pat s) = s := by
  unfold splitnSub
  rw [if_neg hn]
  by_cases hp : pat = []
  · subst hp
    rw [if_pos rfl]
    exact ⟨splitnEmptyPat_length n hn s, splitnEmptyPat_join n hn s⟩
  · rw [if_neg hp]
    refine ⟨?_, joinWith_splitnGo (n - 1) pat s⟩
    have := splitnGo_length (n - 1) pat s
    omega

theorem rsplitnSub_spec (n : Nat) (hn : n ≠ 0) (pat s : Str) :
    (rsplitnSub n pat s).length ≤ n ∧ joinWith pat (rsplitnSub n pat s).reverse = s := by
  unfold rsplitnSub
  rw [if_neg hn]
  by_cases hp : pat = []
  · subst hp
    rw [if_pos rfl]
    exact ⟨rsplitnEmptyPat_length n hn s, rsplitnEmptyPat_join n hn s⟩
  · rw [if_neg hp]
    refine ⟨?_, joinWith_rsplitnGo (n - 1) pat s⟩
    have := rsplitnGo_length (n - 1) pat s
    omega

theorem joinWith_splitSub (pat s : Str) : joinWith pat (splitSub pat s) = s := by
  unfold splitSub
  by_cases hp : pat = []
  · subst hp
    rw [if_pos rfl, joinWith_nil]
    simp [splitEmptyPat, flatten_map_singleton]
  · rw [if_neg hp]
    exact joinWith_splitnGo (s.length + 1) pat s

/-! Claim theorems. -/

/-- Claim C1 (code bug): the spec says the Trim family excises its range,
so TrimFromPat should return the prefix strictly before the first
occurrence of the pattern and `trim ++ cut` should rebuild the input.
The code of `trim_from_pat` is instead byte-for-byte the body of
`cut_from_pat` (the retained suffix), contradicting its own help text
("Trims (removes) contents of a line starting from a given pattern to
the end of the line"): on input "abc" with pattern "b" it returns "bc",
not "a", and the concatenation law fails. -/
theorem C1_code_eval :
    trim_from_pat (str "b") (str "abc") = str "bc" ∧
    trim_from_pat (str "b") (str "abc") ++ cut_from_pat (str "b") (str "abc") ≠
      str "abc" := by
  decide

/-- Claim C2 (code bug): the spec says Replace with count Some(-1)
replaces the last occurrence, so Replace("a","b",Some(-1)) on "banana"
should give "bananb".  The counted branches of `replace` collect the
`rsplitn`/`splitn` pieces without ever inserting the replacement string
(`with` is unused there), and `rsplitn(1, pat)` performs no split at
all, so the code returns "banana" unchanged. -/
theorem C2_code_eval :
    replace (str "a") (str "b") (some (-1)) (str "banana") = str "banana" ∧
    str "banana" ≠ str "bananb" := by
  decide

/-- Claim C3 (counterexample): SplitAtWhitespace with positive count 1 on
"a b c" keeps only the first token ["a"] — `take(1)` on the token
iterator — rather than splitting once and keeping the remainder "b c"
in the last segment as the claim requires. -/
theorem C3_counterexample :
    split_at_whitespace (some 1) (str "a b c") = Output.Multiple [str "a"] ∧
    [str "a"] ≠ [str "a", str "b c"] := by
  decide

/-- Claim C3 (amended): for positive count N, SplitAtPat and SplitAtChar
produce at most N segments (the code passes N to `splitn`, which splits
at most N-1 times) with the unsplit remainder kept in the last segment —
witnessed by the join law: rejoining the segments with the separator
reproduces the input; SplitAtWhitespace instead returns just the first N
whitespace-separated tokens, discarding the remainder. -/
theorem C3_amended_splits (pat : Str) (c : Char) (input : Str) (n : Int)
    (hn : 0 < n) :
    (∀ out, split_at_pat (some n) pat input = Output.Multiple out →
      out.length ≤ n.toNat ∧ joinWith pat out = input) ∧
    (∀ out, split_at_char (some n) c input = Output.Multiple out →
      out.length ≤ n.toNat ∧ joinWith [c] out = input) ∧
    split_at_whitespace (some n) input =
      Output.Multiple ((splitWhitespace input).take n.toNat) := by
  have hneg : ¬ n < 0 := by omega
  have htoNat : n.toNat ≠ 0 := by omega
  refine ⟨?_, ?_, ?_⟩
  · intro out hout
    simp only [split_at_pat, if_neg hneg, if_pos hn] at hout
    cases hout
    exact splitnSub_spec n.toNat htoNat pat input
  · intro out hout
    simp only [split_at_char, if_neg hneg, if_pos hn] at hout
    cases hout
    exact splitnSub_spec n.toNat htoNat [c] input
  · simp only [split_at_whitespace, if_neg hneg, if_pos hn]

/-- Witness for C3_amended_splits at pattern ",", char ',', input
"a,b,c", count 2. -/
theorem C3_amended_splits_witness :
    (splitnSub (Int.toNat 2) (str ",") (str "a,b,c")).length ≤ Int.toNat 2 ∧
    joinWith (str ",") (splitnSub (Int.toNat 2) (str ",") (str "a,b,c")) =
      str "a,b,c" :=
  (C3_amended_splits (str ",") ',' (str "a,b,c") 2 (by decide)).1
    (splitnSub (Int.toNat 2) (str ",") (str "a,b,c")) (by decide)

/-- Claim C4 (counterexample): SplitAtPat with count -2 on "a,b,c"
yields ["c", "a,b"] — segments in right-to-left order with the left
remainder last — not ["a,b", "c"] with the left remainder first as the
claim requires. -/
theorem C4_counterexample :
    split_at_pat (some (-2)) (str ",") (str "a,b,c") =
      Output.Multiple [str "c", str "a,b"] ∧
    [str "c", str "a,b"] ≠ [str "a,b", str "c"] := by
  decide

/-- Claim C4 (amended): for negative count N, SplitAtPat and SplitAtChar
produce at most |N| segments in right-to-left input order, with the
unsplit left remainder as the last element — witnessed by the join law
on the reversed output: reversing the segments and rejoining with the
separator reproduces the input. -/
theorem C4_amended_rsplits (pat : Str) (c : Char) (input : Str) (n : Int)
    (hn : n < 0) :
    (∀ out, split_at_pat (some n) pat input = Output.Multiple out →
      out.length ≤ n.natAbs ∧ joinWith pat out.reverse = input) ∧
    (∀ out, split_at_char (some n) c input = Output.Multiple out →
      out.length ≤ n.natAbs ∧ joinWith [c] out.reverse = input) := by
  have hna : n.natAbs ≠ 0 := by omega
  constructor
  · intro out hout
    simp only [split_at_pat, if_pos hn] at hout
    cases hout
    exact rsplitnSub_spec n.natAbs hna pat input
  · intro out hout
    simp only [split_at_char, if_pos hn] at hout
    cases hout
    exact rsplitnSub_spec n.natAbs hna [c] input

/-- Witness for C4_amended_rsplits at pattern ",", char ',', input
"a,b,c", count -2. -/
theorem C4_amended_rsplits_witness :
    (rsplitnSub (Int.natAbs (-2)) (str ",") (str "a,b,c")).length ≤
      Int.natAbs (-2) ∧
    joinWith (str ",")
      (rsplitnSub (Int.natAbs (-2)) (str ",") (str "a,b,c")).reverse =
      str "a,b,c" :=
  (C4_amended_rsplits (str ",") ',' (str "a,b,c") (-2) (by decide)).1
    (rsplitnSub (Int.natAbs (-2)) (str ",") (str "a,b,c")) (by decide)

/-- Claim C5 (counterexample): on input "abc" with pattern "a" and
offset 3, the computed range [0, 3) lies exactly within the input's
bounds (start + offset = length), yet the guard
`offset as usize + start_idx > input.len() - 1` fires and the run
terminates fatally — the claimed "fails if and only if the range
exceeds bounds / succeeds when start + offset <= length" is false at
the boundary. -/
theorem C5_counterexample :
    findSub (str "a") (str "abc") = some 0 ∧
    0 + 3 ≤ (str "abc").length ∧
    cut_from_pat_to_offset (str "a") 3 (str "abc") = Res.fatal := by
  decide

/-- Claim C5 (amended): for a nonnegative offset with the pattern found
at byte position p (and sizes within `usize` range so no wrap-around
occurs), CutFromPatToOffset terminates fatally if and only if
p + offset >= length — i.e. it also rejects a range ending exactly at
the end of the input — and when p + offset < length it succeeds,
returning the retained span input[p .. p+offset). -/
theorem C5_amended_bounds (pat input : Str) (offset : Int) (p : Nat)
    (hfind : findSub pat input = some p) (hoff : 0 ≤ offset)
    (hlen1 : 1 ≤ input.length) (hlenU : input.length ≤ USIZE)
    (hwrap : offset.toNat + p < USIZE) :
    (cut_from_pat_to_offset pat offset input = Res.fatal ↔
      input.length ≤ p + offset.toNat) ∧
    (p + offset.toNat < input.length →
      cut_from_pat_to_offset pat offset input =
        Res.ok ((input.drop p).take offset.toNat)) := by
  have hcast : asUsize offset = offset.toNat := by
    unfold asUsize
    have h2 : offset < (USIZE : Int) := by
      rw [← Int.toNat_of_nonneg hoff]
      exact_mod_cast (by omega : offset.toNat < USIZE)
    rw [Int.emod_eq_of_lt hoff h2]
  simp only [cut_from_pat_to_offset, hfind, Option.getD_some, hcast]
  have hmod1 : (offset.toNat + p) % USIZE = offset.toNat + p :=
    Nat.mod_eq_of_lt hwrap
  have hmod2 : (input.length + USIZE - 1) % USIZE = input.length - 1 := by
    have hUpos : 0 < USIZE := by decide
    have he : input.length + USIZE - 1 = (input.length - 1) + USIZE := by omega
    rw [he, Nat.add_mod_right]
    exact Nat.mod_eq_of_lt (by omega)
  rw [hmod1, hmod2]
  have hnoff : ¬ offset < 0 := by omega
  rw [if_neg hnoff]
  have habs : offset.natAbs = offset.toNat := by omega
  rw [habs]
  by_cases hc : input.length ≤ p + offset.toNat
  · rw [if_pos (by omega)]
    exact ⟨⟨fun _ => hc, fun _ => rfl⟩, fun h => absurd h (by omega)⟩
  · rw [if_neg (by omega)]
    unfold rustSlice
    rw [if_pos (⟨Nat.le_add_right p offset.toNat, by omega⟩ :
      p ≤ p + offset.toNat ∧ p + offset.toNat ≤ input.length)]
    have ht : p + offset.toNat - p = offset.toNat := by omega
    rw [ht]
    refine ⟨⟨fun h => ?_, fun h => absurd h hc⟩, fun _ => rfl⟩
    simp at h

/-- Witness for C5_amended_bounds at pattern "a", offset 1, input
"abc". -/
theorem C5_amended_bounds_witness :
    cut_from_pat_to_offset (str "a") 1 (str "abc") =
      Res.ok (((str "abc").drop 0).take ((1 : Int)).toNat) :=
  (C5_amended_bounds (str "a") (str "abc") 1 0 (by decide) (by decide)
    (by decide) (by decide) (by decide)).2 (by decide)

/-- Claim C6 (code bug): the pattern "llo" occurs in "hello" at byte
position 2 and the offset is -2 with 2 - 2 >= 0, so per the spec the
operation should return the two bytes before the pattern, "he".  The
code instead builds the backward range as
`start_idx + |offset| .. start_idx` — an inverted range [4, 2) — after
the wrapping bounds guard passes, and the slice panics; the claimed
value is never produced. -/
theorem C6_code_eval :
    findSub (str "llo") (str "hello") = some 2 ∧
    cut_from_pat_to_offset (str "llo") (-2) (str "hello") = Res.panicked ∧
    Res.panicked ≠ Res.ok (str "he") := by
  decide

/-- Claim C7 (confirmed): for every pattern (including the empty one)
and every character, splitting with count unset and rejoining the
segments with the separator reproduces the input exactly. -/
theorem C7_round_trip (pat : Str) (c : Char) (input : Str)
    (outP outC : List Str) :
    (split_at_pat none pat input = Output.Multiple outP →
      joinWith pat outP = input) ∧
    (split_at_char none c input = Output.Multiple outC →
      joinWith [c] outC = input) := by
  constructor
  · intro h
    simp only [split_at_pat] at h
    cases h
    exact joinWith_splitSub pat input
  · intro h
    simp only [split_at_char] at h
    cases h
    exact joinWith_splitSub [c] input

/-- Witness for C7_round_trip at pattern ",", input "a,b". -/
theorem C7_round_trip_witness :
    joinWith (str ",") (splitSub (str ",") (str "a,b")) = str "a,b" :=
  (C7_round_trip (str ",") ',' (str "a,b") (splitSub (str ",") (str "a,b"))
    (splitSub [','] (str "a,b"))).1 (by decide)

/-- Claim C8 (confirmed): CutUntilIndex with index 0 returns the whole
input (zero means "unspecified"), and with 0 < k <= length it returns
the prefix input[0 .. k). -/
theorem C8_cut_until_index (index : Nat) (input : Str) :
    (index = 0 → cut_until_index index input = some input) ∧
    (0 < index → index ≤ input.length →
      cut_until_index index input = some (input.take index)) := by
  constructor
  · intro h0
    subst h0
    simp [cut_until_index, rustSlice]
  · intro hpos hle
    unfold cut_until_index rustSlice
    rw [if_pos (by omega : index ≠ 0)]
    rw [if_pos ⟨Nat.zero_le _, hle⟩]
    simp

/-- Witness for C8_cut_until_index at indices 0 and 1 on "ab". -/
theorem C8_cut_until_index_witness :
    cut_until_index 0 (str "ab") = some (str "ab") ∧
    cut_until_index 1 (str "ab") = some ((str "ab").take 1) :=
  ⟨(C8_cut_until_index 0 (str "ab")).1 rfl,
   (C8_cut_until_index 1 (str "ab")).2 (by decide) (by decide)⟩

/-- Claim C9 (confirmed): for each of the four mixed operations, when
the pattern occurs first at position p, an explicit index on the wrong
side of p (index < p for the *FromPatToIndex shapes, index > p for the
*FromIndexToPat shapes) is fatal, and index = p returns the whole input
unchanged. -/
theorem C9_mixed_ops (pat input : Str) (index p : Nat)
    (hfind : findSub pat input = some p) :
    (index < p → cut_from_pat_to_index pat index input = Res.fatal) ∧
    (index = p → cut_from_pat_to_index pat index input = Res.ok input) ∧
    (p < index → cut_from_index_to_pat index pat input = Res.fatal) ∧
    (index = p → cut_from_index_to_pat index pat input = Res.ok input) ∧
    (index < p → trim_from_pat_to_index pat index input = Res.fatal) ∧
    (index = p → trim_from_pat_to_index pat index input = Res.ok input) ∧
    (p < index → trim_from_index_to_pat index pat input = Res.fatal) ∧
    (index = p → trim_from_index_to_pat index pat input = Res.ok input) := by
  refine ⟨fun h => ?_, fun h => ?_, fun h => ?_, fun h => ?_, fun h => ?_,
    fun h => ?_, fun h => ?_, fun h => ?_⟩
  · simp [cut_from_pat_to_index, hfind, h]
  · subst h
    simp [cut_from_pat_to_index, hfind]
  · simp [cut_from_index_to_pat, hfind, h]
  · subst h
    simp [cut_from_index_to_pat, hfind]
  · simp [trim_from_pat_to_index, hfind, h]
  · subst h
    simp [trim_from_pat_to_index, hfind]
  · simp [trim_from_index_to_pat, hfind, h]
  · subst h
    simp [trim_from_index_to_pat, hfind]

/-- Witness for C9_mixed_ops on "ab" with pattern "b" (found at 1),
at indices 0, 1 and 2. -/
theorem C9_mixed_ops_witness :
    cut_from_pat_to_index (str "b") 0 (str "ab") = Res.fatal ∧
    cut_from_pat_to_index (str "b") 1 (str "ab") = Res.ok (str "ab") ∧
    cut_from_index_to_pat 2 (str "b") (str "ab") = Res.fatal ∧
    cut_from_index_to_pat 1 (str "b") (str "ab") = Res.ok (str "ab") ∧
    trim_from_pat_to_index (str "b") 0 (str "ab") = Res.fatal ∧
    trim_from_pat_to_index (str "b") 1 (str "ab") = Res.ok (str "ab") ∧
    trim_from_index_to_pat 2 (str "b") (str "ab") = Res.fatal ∧
    trim_from_index_to_pat 1 (str "b") (str "ab") = Res.ok (str "ab") := by
  have h0 := C9_mixed_ops (str "b") (str "ab") 0 1 (by decide)
  have h1 := C9_mixed_ops (str "b") (str "ab") 1 1 (by decide)
  have h2 := C9_mixed_ops (str "b") (str "ab") 2 1 (by decide)
  exact ⟨h0.1 (by decide), h1.2.1 rfl, h2.2.2.1 (by decide), h1.2.2.2.1 rfl,
    h0.2.2.2.2.1 (by decide), h1.2.2.2.2.2.1 rfl, h2.2.2.2.2.2.2.1 (by decide),
    h1.2.2.2.2.2.2.2 rfl⟩

/-- Claim C10 (confirmed): when the pattern occurs at position p > 0,
`trim_to_pat` computes slice start p + length, which is out of bounds,
so the operation panics (the error branch of the slice is reached); it
returns a value only when the pattern is absent or found at position 0,
and then the value is the empty string. -/
theorem C10_trim_to_pat (pat input : Str) (p : Nat) :
    (findSub pat input = some p → 0 < p → trim_to_pat pat input = none) ∧
    (findSub pat input = none → trim_to_pat pat input = some []) ∧
    (findSub pat input = some 0 → trim_to_pat pat input = some []) := by
  refine ⟨fun hf hp => ?_, fun hf => ?_, fun hf => ?_⟩
  · unfold trim_to_pat rustSlice
    rw [hf]
    simp only [Option.getD_some]
    rw [if_neg (by omega)]
  · unfold trim_to_pat rustSlice
    rw [hf]
    simp
  · unfold trim_to_pat rustSlice
    rw [hf]
    simp

/-- Witness for C10_trim_to_pat on "ab" with patterns "b" (found at 1),
"z" (absent) and "a" (found at 0). -/
theorem C10_trim_to_pat_witness :
    trim_to_pat (str "b") (str "ab") = none ∧
    trim_to_pat (str "z") (str "ab") = some [] ∧
    trim_to_pat (str "a") (str "ab") = some [] :=
  ⟨(C10_trim_to_pat (str "b") (str "ab") 1).1 (by decide) (by decide),
   (C10_trim_to_pat (str "z") (str "ab") 0).2.1 (by decide),
   (C10_trim_to_pat (str "a") (str "ab") 0).2.2 (by decide)⟩

end StrSpec
